import Mathlib

/-!
Verification of the sonde-rs core (provider-definition parser, naming model,
type mapper and code emitter) against its natural-language specification.

The embedding follows the Rust sources:
  * `src/d/ast.rs`    — the `Names` trait, `Script`/`Provider`/`Probe`,
                        `Probe::arguments_for_c`, `Probe::arguments_for_c_from_rust`;
  * `src/d/parser.rs` — the nom parsers `ws`, `name`, `ty`, `probe`, `provider`,
                        `script`, `parse`;
  * `src/builder.rs`  — the emission of the native wrapper `.c` source and the
                        Rust binding source in `Builder::compile`.

Strings are modelled as `List Char` (a Rust `String` is a sequence of `char`s;
all operations used by the code are per-`char`).  Rust functions that can
`panic!` are modelled with `Except`/`Option` results.
-/

/-- Decidable equality for `Except` values (used to evaluate the embedded
fallible operations on concrete inputs). -/
instance exceptDecidableEq {ε α : Type} [DecidableEq ε] [DecidableEq α] :
    DecidableEq (Except ε α) := fun x y =>
  match x, y with
  | Except.error a, Except.error b =>
    if h : a = b then isTrue (by rw [h])
    else isFalse fun hc => h (by injection hc)
  | Except.ok a, Except.ok b =>
    if h : a = b then isTrue (by rw [h])
    else isFalse fun hc => h (by injection hc)
  | Except.error _, Except.ok _ => isFalse fun hc => Except.noConfusion hc
  | Except.ok _, Except.error _ => isFalse fun hc => Except.noConfusion hc

namespace Sonde

/-! ## Naming model (`src/d/ast.rs`, trait `Names`)

`safe_name` is `self.name().replace("__", "_")`.  Rust's `str::replace`
performs leftmost, non-overlapping replacement of every match.  Specialized to
the pattern `"__"` and replacement `"_"`, that is exactly the recursion below:
whenever the next two characters are both `'_'`, they are replaced by a single
`'_'` and scanning resumes *after* the matched pair; otherwise one character is
kept and scanning resumes at the next character. -/

def rustReplaceDunder : List Char → List Char
  | [] => []
  | [c] => [c]
  | c1 :: c2 :: rest =>
    if c1 = '_' ∧ c2 = '_' then '_' :: rustReplaceDunder rest
    else c1 :: rustReplaceDunder (c2 :: rest)

/-- Rust `str::to_uppercase`, restricted to the ASCII range (on ASCII input the
Unicode uppercasing used by Rust coincides with per-character ASCII
uppercasing). -/
def rustToUppercase (s : List Char) : List Char :=
  s.map Char.toUpper

/-- Rust `str::to_lowercase`, restricted to the ASCII range (see
`rustToUppercase`). -/
def rustToLowercase (s : List Char) : List Char :=
  s.map Char.toLower

/-- `Names::safe_name`: `self.name().replace("__", "_")`. -/
def safe_name (name : List Char) : List Char :=
  rustReplaceDunder name

/-- `Names::name_for_c_macro`: `self.safe_name().to_uppercase()`. -/
def name_for_c_macro (name : List Char) : List Char :=
  rustToUppercase (safe_name name)

/-- `Names::name_for_c`: `self.safe_name().to_lowercase()`. -/
def name_for_c (name : List Char) : List Char :=
  rustToLowercase (safe_name name)

/-- `Names::name_for_rust`: `self.safe_name().to_lowercase()`. -/
def name_for_rust (name : List Char) : List Char :=
  rustToLowercase (safe_name name)

/-! Auxiliary predicates about underscore runs (specification side, used to
state for which inputs the doubled-separator collapse is idempotent). -/

/-- `true` iff the string contains two adjacent underscores. -/
def hasDoubleUnderscore : List Char → Bool
  | c1 :: c2 :: rest => (c1 = '_' && c2 = '_') || hasDoubleUnderscore (c2 :: rest)
  | _ => false

/-- `true` iff the string contains three adjacent underscores. -/
def hasTripleUnderscore : List Char → Bool
  | c1 :: c2 :: c3 :: rest =>
    (c1 = '_' && c2 = '_' && c3 = '_') || hasTripleUnderscore (c2 :: c3 :: rest)
  | _ => false

/-! ## Data model (`src/d/ast.rs`) -/

/-- `Probe`: a named, typed call site; `arguments` holds raw type spellings. -/
structure Probe where
  name : List Char
  arguments : List (List Char)
deriving DecidableEq

/-- `Provider`: a named group of probes. -/
structure Provider where
  name : List Char
  probes : List Probe
deriving DecidableEq

/-- `Script`: the root parse result, the ordered providers of a `.d` file. -/
structure Script where
  providers : List Provider
deriving DecidableEq

/-! ## Type mapper (`Probe::arguments_for_c_from_rust`, `src/d/ast.rs`)

Each raw argument spelling is processed as:
`let number_of_pointers = argument_ty.chars().filter(|c| *c == '*').count();`
then the base token is
`argument_ty.trim_end_matches(|c| c == ' ' || c == '*')`, looked up in a
closed 17-entry `match`; an unknown base token is
`panic!("D type `{}` isn't supported yet", t)` — modelled as `Except.error`
carrying the base token `t` that appears in the panic message. -/

/-- `trim_end_matches(|c| c == ' ' || c == '*')`: strip every trailing space or
pointer marker. -/
def trimEndPtrSpace (t : List Char) : List Char :=
  (t.reverse.dropWhile fun c => c == ' ' || c == '*').reverse

/-- The closed base-token table of `arguments_for_c_from_rust`: the 17 `match`
arms, in source order, mapping a D scalar spelling to the Rust foreign type. -/
def dTypeTable : List (List Char × List Char) :=
  [("char".toList, "c_char".toList),
   ("short".toList, "c_short".toList),
   ("int".toList, "c_int".toList),
   ("long".toList, "c_long".toList),
   ("long long".toList, "c_longlong".toList),
   ("int8_t".toList, "i8".toList),
   ("int16_t".toList, "i16".toList),
   ("int32_t".toList, "i32".toList),
   ("int64_t".toList, "i64".toList),
   ("intptr_t".toList, "isize".toList),
   ("uint8_t".toList, "u8".toList),
   ("uint16_t".toList, "u16".toList),
   ("uint32_t".toList, "u32".toList),
   ("uint64_t".toList, "u64".toList),
   ("uintptr_t".toList, "usize".toList),
   ("float".toList, "c_float".toList),
   ("double".toList, "c_double".toList)]

/-- The `match` of `arguments_for_c_from_rust` on the stripped base token:
sequential comparison against the closed table, `none` for the fall-through
`panic!` arm. -/
def dTypeToRustType (t : List Char) : Option (List Char) :=
  dTypeTable.lookup t

/-- One argument of the Rust-side FFI parameter list:
`format!("arg{nth}: {ptr}{ty}", ptr = "*mut ".repeat(number_of_pointers), ..)`,
or the panic (as `Except.error` carrying the unsupported base token). -/
def argumentForCFromRust (nth : Nat) (argument_ty : List Char) :
    Except (List Char) (List Char) :=
  let number_of_pointers := (argument_ty.filter fun c => c == '*').length
  match dTypeToRustType (trimEndPtrSpace argument_ty) with
  | none => Except.error (trimEndPtrSpace argument_ty)
  | some ty =>
    Except.ok ("arg".toList ++ (Nat.repr nth).toList ++ ": ".toList ++
      (List.replicate number_of_pointers "*mut ".toList).flatten ++ ty)

/-- The enumerated mapping underlying `arguments_for_c_from_rust` (Rust's
`.iter().enumerate().map(..).collect::<Vec<_>>()`, with the panic propagated as
an error that aborts the whole collection). -/
def argumentsForCFromRustAux : Nat → List (List Char) →
    Except (List Char) (List (List Char))
  | _, [] => Except.ok []
  | nth, argument :: rest =>
    match argumentForCFromRust nth argument with
    | Except.error e => Except.error e
    | Except.ok x =>
      match argumentsForCFromRustAux (nth + 1) rest with
      | Except.error e => Except.error e
      | Except.ok xs => Except.ok (x :: xs)

/-- `Probe::arguments_for_c_from_rust`: the mapped, comma-joined Rust parameter
list. -/
def argumentsForCFromRust (arguments : List (List Char)) :
    Except (List Char) (List Char) :=
  match argumentsForCFromRustAux 0 arguments with
  | Except.error e => Except.error e
  | Except.ok xs => Except.ok (List.intercalate ", ".toList xs)

/-! ## Parser (`src/d/parser.rs`)

The nom parsers are embedded as functions `List Char → Option (List Char × α)`
returning, as nom's `IResult` does on success, the *remaining* input together
with the parsed value; `none` is a parse failure (the code propagates all nom
error values alike, so their payload is irrelevant here).

`canon!(p)` is `preceded(ws, p)` with `ws = take_while(c ∈ "\t\r\n ")`, i.e.
running `p` after dropping leading whitespace (`skipWs`).  The two unbounded
source loops (`many0(canon!(probe))` inside `provider`, and `script`'s
"find next keyword, parse block" loop) consume at least one character per
iteration (a `probe`/`provider` tag, a `','` separator), so they run at most
`input.length` iterations; they are embedded with an explicit iteration bound
of `input.length + 1`, which is proved sufficient below
(`pScriptLoop_fuel_irrelevant`). -/

/-- `ws`'s character class: `"\t\r\n "` (`chars.contains(c)`). -/
def isWsChar (c : Char) : Bool :=
  c == '\t' || c == '\r' || c == '\n' || c == ' '

/-- `preceded(ws, ·)`: drop the leading whitespace run. -/
def skipWs (input : List Char) : List Char :=
  input.dropWhile isWsChar

/-- nom's `is_alphanumeric` on a byte: ASCII letter or digit. -/
def isAsciiAlphanumericByte (b : Nat) : Bool :=
  (0x41 ≤ b && b ≤ 0x5A) || (0x61 ≤ b && b ≤ 0x7A) || (0x30 ≤ b && b ≤ 0x39)

/-- The `name` parser's character test,
`is_alphanumeric(c as u8) || c == '-' || c == '_'`.  Rust's `c as u8`
truncates the scalar value to its low byte (`% 256`). -/
def isNameChar (c : Char) : Bool :=
  isAsciiAlphanumericByte (c.toNat % 256) || c == '-' || c == '_'

/-- The `ty` parser's character test: any character other than `','` and `')'`
(`take_while(!chars.contains(c))` with `chars = ",)"`). -/
def isTyChar (c : Char) : Bool :=
  !(c == ',' || c == ')')

/-- Rust `char::is_whitespace`: the Unicode `White_Space` code points (used by
`str::trim` on the captured argument spellings). -/
def isRustWhitespace (c : Char) : Bool :=
  (9 ≤ c.toNat && c.toNat ≤ 13) || c.toNat == 0x20 || c.toNat == 0x85 ||
  c.toNat == 0xA0 || c.toNat == 0x1680 ||
  (0x2000 ≤ c.toNat && c.toNat ≤ 0x200A) ||
  c.toNat == 0x2028 || c.toNat == 0x2029 || c.toNat == 0x202F ||
  c.toNat == 0x205F || c.toNat == 0x3000

/-- Rust `str::trim`: strip leading and trailing whitespace. -/
def trimChars (s : List Char) : List Char :=
  ((s.dropWhile isRustWhitespace).reverse.dropWhile isRustWhitespace).reverse

/-- nom `char(c)`: consume exactly the character `c`. -/
def pChar (c : Char) : List Char → Option (List Char × Char)
  | x :: rest => if x = c then some (rest, c) else none
  | [] => none

/-- nom `tag(t)`: consume exactly the literal `t`. -/
def pTag (t : List Char) (input : List Char) : Option (List Char × List Char) :=
  if t.isPrefixOf input then some (input.drop t.length, t) else none

/-- nom `take_until(t)`: consume up to (excluding) the first occurrence of
`t`; fail when `t` does not occur. -/
def pTakeUntil (t : List Char) : List Char → Option (List Char × List Char)
  | [] => if t.isPrefixOf ([] : List Char) then some ([], []) else none
  | c :: rest =>
    if t.isPrefixOf (c :: rest) then some (c :: rest, [])
    else (pTakeUntil t rest).map fun s => (s.1, c :: s.2)

/-- The iteration of `separated_list0(char(','), canon!(ty))` after its first
element: as long as the next character is the separator `','`, consume it and
parse one more `canon!(ty)` element (which always succeeds, possibly empty).
Each iteration consumes the `','`, so `fuel > input.length` never runs out. -/
def pArgListLoop : Nat → List Char → List (List Char) →
    Option (List Char × List (List Char))
  | 0, _, _ => none
  | fuel + 1, input, acc =>
    match pChar ',' input with
    | none => some (input, acc)
    | some s =>
      pArgListLoop fuel ((skipWs s.1).dropWhile isTyChar)
        (acc ++ [(skipWs s.1).takeWhile isTyChar])

/-- `separated_list0(char(','), canon!(ty))`: the raw (untrimmed, unfiltered)
argument spellings of a probe. -/
def pArgList (input : List Char) : Option (List Char × List (List Char)) :=
  pArgListLoop (input.length + 1) ((skipWs input).dropWhile isTyChar)
    [(skipWs input).takeWhile isTyChar]

/-- The `probe` parser:
`tag("probe")`, `canon!(name)`, `canon!(char('('))`, the argument list,
`canon!(char(')'))`, `canon!(char(';'))`, building a `Probe` whose arguments
are the trimmed, non-empty spellings (`filter_map` over `trim`). -/
def pProbe (input : List Char) : Option (List Char × Probe) :=
  (pTag "probe".toList input).bind fun s1 =>
  (pChar '(' (skipWs ((skipWs s1.1).dropWhile isNameChar))).bind fun s2 =>
  (pArgList s2.1).bind fun s3 =>
  (pChar ')' (skipWs s3.1)).bind fun s4 =>
  (pChar ';' (skipWs s4.1)).map fun s5 =>
  (s5.1,
   { name := (skipWs s1.1).takeWhile isNameChar,
     arguments := s3.2.filterMap fun argument =>
       let a := trimChars argument
       if a.isEmpty then none else some a })

/-- The iteration of `many0(canon!(probe))`: parse whitespace-canonicalized
probes until one fails, returning the input positioned *before* the failed
attempt.  A successful `probe` consumes at least the `"probe"` tag, so
`fuel > input.length` never runs out. -/
def pProbeListLoop : Nat → List Char → Option (List Char × List Probe)
  | 0, _ => none
  | fuel + 1, input =>
    match pProbe (skipWs input) with
    | none => some (input, [])
    | some t =>
      match pProbeListLoop fuel t.1 with
      | none => none
      | some u => some (u.1, t.2 :: u.2)

/-- `many0(canon!(probe))`. -/
def pProbes (input : List Char) : Option (List Char × List Probe) :=
  pProbeListLoop (input.length + 1) input

/-- The `provider` parser: `tag("provider")`, `canon!(name)`,
`canon!(char('{'))`, `many0(canon!(probe))`, `canon!(char('}'))`,
`canon!(char(';'))`. -/
def pProvider (input : List Char) : Option (List Char × Provider) :=
  (pTag "provider".toList input).bind fun s1 =>
  (pChar '\x7b' (skipWs ((skipWs s1.1).dropWhile isNameChar))).bind fun s2 =>
  (pProbes s2.1).bind fun s3 =>
  (pChar '\x7d' (skipWs s3.1)).bind fun s4 =>
  (pChar ';' (skipWs s4.1)).map fun s5 =>
  (s5.1, { name := (skipWs s1.1).takeWhile isNameChar, probes := s3.2 })

def providerKeyword : List Char := "provider".toList

/-- The `script` parser's loop: `take_until("provider")` then `provider`
(whose failure is propagated by `?`), pushing each parsed provider, until
`take_until` fails, at which point the collected providers are returned.  A
successful iteration consumes at least the `"provider"` tag, so
`fuel > input.length` never runs out (`pScriptLoop_fuel_irrelevant`). -/
def pScriptLoop : Nat → List Char → List Provider → Option Script
  | 0, _, _ => none
  | fuel + 1, input, acc =>
    match pTakeUntil providerKeyword input with
    | none => some { providers := acc }
    | some s =>
      match pProvider s.1 with
      | none => none
      | some t => pScriptLoop fuel t.1 (acc ++ [t.2])

/-- `parse`: run `script` on the whole input (the source converts the nom
error into a `String`; only success vs. failure matters here). -/
def parse (input : List Char) : Option Script :=
  pScriptLoop (input.length + 1) input []

/-- Occurrence test for a literal inside a text (used to state when
`take_until` fails): `t` occurs as a contiguous subsequence. -/
def containsSeq (t : List Char) : List Char → Bool
  | [] => t.isPrefixOf ([] : List Char)
  | c :: rest => t.isPrefixOf (c :: rest) || containsSeq t rest

/-! ## Code emitter (`src/builder.rs`, `Builder::compile`)

The two output artifacts are the FFI `.c` source (native wrappers around the
tracing macros, preceded by an `#include` of the header generated by the
external `dtrace` tool into a per-run temporary file) and the Rust binding
source `sonde.rs` (extern declarations plus per-provider modules of safe
callables). -/

/-- `.iter().enumerate().map(f)` with the positional counter made explicit. -/
def enumMapFrom {α β : Type} (f : Nat → α → β) : Nat → List α → List β
  | _, [] => []
  | n, x :: xs => f n x :: enumMapFrom f (n + 1) xs

/-- The items of `Probe::arguments_for_c`: `"{ty} arg{nth}"`, the raw type
spelling verbatim followed by the positional parameter name. -/
def argumentsForCList (arguments : List (List Char)) : List (List Char) :=
  enumMapFrom (fun nth ty => ty ++ " arg".toList ++ (Nat.repr nth).toList)
    0 arguments

/-- `Probe::arguments_for_c`: the comma-joined C parameter list. -/
def arguments_for_c (arguments : List (List Char)) : List Char :=
  List.intercalate ", ".toList (argumentsForCList arguments)

/-- The positional argument names `"arg{nth}"` forwarded by the generated
functions (built inline, twice, in `Builder::compile`). -/
def argumentNamesList (arguments : List (List Char)) : List (List Char) :=
  enumMapFrom (fun nth _ => "arg".toList ++ (Nat.repr nth).toList) 0 arguments

/-- The comma-joined forwarded argument names. -/
def argumentNames (arguments : List (List Char)) : List Char :=
  List.intercalate ", ".toList (argumentNamesList arguments)

/-- One native wrapper function of the FFI `.c` file:
`"\nvoid {prefix}_probe_{suffix}({arguments}) {\n    {macro_prefix}_{macro_suffix}({argument_names});\n}\n"`
(the literal braces of the C body are written `\x7b`/`\x7d` here). -/
def cWrapperFor (provider : Provider) (probe : Probe) : List Char :=
  "\nvoid ".toList ++ name_for_c provider.name ++ "_probe_".toList ++
    name_for_c probe.name ++ "(".toList ++ arguments_for_c probe.arguments ++
    ") \x7b\n    ".toList ++ name_for_c_macro provider.name ++ "_".toList ++
    name_for_c_macro probe.name ++ "(".toList ++
    argumentNames probe.arguments ++ ");\n\x7d\n".toList

/-- The debug-formatted (`{:?}`) header path spliced into the `#include`
line: the path surrounded by double quotes.  (Rust's `Debug` for `Path` would
additionally escape quotes and backslashes occurring *inside* the path; the
paths modelled here are plain.) -/
def pathDebugQuoted (p : List Char) : List Char :=
  '"' :: (p ++ ['"'])

/-- The whole generated FFI `.c` source:
`format!("#include {header_file:?}\n\n{wrappers}")`, where `wrappers` joins
the per-provider blocks with `"\n"` and each block concatenates (joins with
`""`) its per-probe wrapper functions. -/
def cArtifact (headerPath : List Char) (providers : List Provider) : List Char :=
  "#include ".toList ++ pathDebugQuoted headerPath ++ "\n\n".toList ++
    List.intercalate "\n".toList
      (providers.map fun provider =>
        (provider.probes.map fun probe => cWrapperFor provider probe).flatten)

/-- Map a fallible rendering over a list, aborting at the first error (the
source's `panic!` aborts the whole iteration). -/
def exceptMapList {α : Type} (f : α → Except (List Char) (List Char)) :
    List α → Except (List Char) (List (List Char))
  | [] => Except.ok []
  | x :: xs =>
    match f x with
    | Except.error e => Except.error e
    | Except.ok y =>
      match exceptMapList f xs with
      | Except.error e => Except.error e
      | Except.ok ys => Except.ok (y :: ys)

/-- One extern declaration of the Rust binding source:
`"    #[doc(hidden)]\n    fn {ffi_prefix}_probe_{ffi_suffix}({arguments});"`. -/
def externDeclFor (provider : Provider) (probe : Probe) :
    Except (List Char) (List Char) :=
  match argumentsForCFromRust probe.arguments with
  | Except.error e => Except.error e
  | Except.ok arguments =>
    Except.ok ("    #[doc(hidden)]\n    fn ".toList ++
      name_for_c provider.name ++ "_probe_".toList ++ name_for_c probe.name ++
      "(".toList ++ arguments ++ ");".toList)

/-- One binding function of the Rust binding source: the doc comment, the
`pub fn r#{probe_name}({arguments})` header and the body calling the extern
symbol inside an `unsafe` block, forwarding the positional argument names. -/
def rustBindingFor (provider : Provider) (probe : Probe) :
    Except (List Char) (List Char) :=
  match argumentsForCFromRust probe.arguments with
  | Except.error e => Except.error e
  | Except.ok arguments =>
    Except.ok ("    /// Call the `".toList ++ name_for_rust probe.name ++
      "` probe of the `".toList ++ name_for_rust provider.name ++
      "` provider.\n    pub fn r#".toList ++ name_for_rust probe.name ++
      "(".toList ++ arguments ++ ") \x7b\n        unsafe \x7b super::".toList ++
      name_for_c provider.name ++ "_probe_".toList ++ name_for_c probe.name ++
      "(".toList ++ argumentNames probe.arguments ++ ") \x7d;\n    \x7d".toList)

/-- The per-provider module block of the Rust binding source:
`"/// Probes for the `{provider_name}` provider.\npub mod r#{provider_name} {\n    use std::os::raw::*;\n\n{probes}\n}"`,
its probes joined with `"\n\n"`. -/
def rustModuleFor (provider : Provider) : Except (List Char) (List Char) :=
  match exceptMapList (rustBindingFor provider) provider.probes with
  | Except.error e => Except.error e
  | Except.ok probes =>
    Except.ok ("/// Probes for the `".toList ++ name_for_rust provider.name ++
      "` provider.\npub mod r#".toList ++ name_for_rust provider.name ++
      " \x7b\n    use std::os::raw::*;\n\n".toList ++
      List.intercalate "\n\n".toList probes ++ "\n\x7d".toList)

/-- The `externs` splice of the Rust binding source: per provider, its extern
declarations joined with `"\n\n"`; the provider blocks joined with `"\n\n"`. -/
def rustExterns (providers : List Provider) : Except (List Char) (List Char) :=
  match exceptMapList
      (fun provider =>
        match exceptMapList (externDeclFor provider) provider.probes with
        | Except.error e => Except.error e
        | Except.ok ds => Except.ok (List.intercalate "\n\n".toList ds))
      providers with
  | Except.error e => Except.error e
  | Except.ok blocks => Except.ok (List.intercalate "\n\n".toList blocks)

/-- The whole generated Rust binding source (`OUT_DIR/sonde.rs`): the
`format!` template with the extern block and the provider modules spliced
in. -/
def rsArtifact (providers : List Provider) : Except (List Char) (List Char) :=
  match rustExterns providers with
  | Except.error e => Except.error e
  | Except.ok externs =>
    match exceptMapList rustModuleFor providers with
    | Except.error e => Except.error e
    | Except.ok modules =>
      Except.ok
        ("/// Bindings from Rust to the C FFI small library that calls the\n/// probes.\n\nuse std::os::raw::*;\n\nextern \"C\" \x7b\n".toList ++
          externs ++ "\n\x7d\n\n".toList ++
          List.intercalate "\n\n".toList modules ++ "\n".toList)

/-- One generation pass over a fixed input text: parse, then emit both
artifacts.  `headerPath` is the path of the per-run temporary header file that
the `.c` source `#include`s (obtained from `tempfile` in the source, hence
varying between runs); everything else is a function of the text alone. -/
def pipeline (text headerPath : List Char) :
    Option (List Char × Except (List Char) (List Char)) :=
  match parse text with
  | none => none
  | some script =>
    some (cArtifact headerPath script.providers, rsArtifact script.providers)

lemma rustReplaceDunder_head? (s : List Char) :
    (rustReplaceDunder s).head? = s.head? := by
  match s with
  | [] => rfl
  | [c] => rfl
  | c1 :: c2 :: rest =>
    rw [rustReplaceDunder]
    split
    · rename_i h
      simp [h.1]
    · rfl

lemma hasTripleUnderscore_tail {c : Char} {l : List Char}
    (h : hasTripleUnderscore (c :: l) = false) : hasTripleUnderscore l = false := by
  match l with
  | [] => rfl
  | [_] => rfl
  | c2 :: c3 :: rest =>
    rw [hasTripleUnderscore, Bool.or_eq_false_iff] at h
    exact h.2

lemma rustReplaceDunder_of_no_double {s : List Char}
    (h : hasDoubleUnderscore s = false) : rustReplaceDunder s = s := by
  induction s with
  | nil => rfl
  | cons c1 t ih =>
    match t with
    | [] => rfl
    | c2 :: rest =>
      rw [hasDoubleUnderscore, Bool.or_eq_false_iff] at h
      rw [rustReplaceDunder, if_neg, ih h.2]
      intro hc
      have h1 := h.1
      rw [hc.1, hc.2] at h1
      simp at h1

lemma no_double_of_replace {s : List Char}
    (h : hasTripleUnderscore s = false) :
    hasDoubleUnderscore (rustReplaceDunder s) = false := by
  induction s using rustReplaceDunder.induct with
  | case1 => rfl
  | case2 c => rfl
  | case3 c1 c2 rest hu ih =>
    rw [rustReplaceDunder, if_pos hu]
    have hrest : hasTripleUnderscore rest = false :=
      hasTripleUnderscore_tail (hasTripleUnderscore_tail h)
    have ih' := ih hrest
    match hr : rustReplaceDunder rest with
    | [] => rfl
    | d :: ds =>
      rw [hasDoubleUnderscore, Bool.or_eq_false_iff]
      refine ⟨?_, by rw [← hr]; exact ih'⟩
      have hd : rest.head? = some d := by rw [← rustReplaceDunder_head?, hr]; rfl
      match rest, hd with
      | e :: rest', hd =>
        simp only [List.head?] at hd
        have hne : e ≠ '_' := by
          intro he
          rw [hu.1, hu.2, he] at h
          rw [hasTripleUnderscore] at h
          simp at h
        simp only [Option.some.injEq] at hd
        subst hd
        simp [hne]
  | case4 c1 c2 rest hu ih =>
    rw [rustReplaceDunder, if_neg hu]
    have ih' := ih (hasTripleUnderscore_tail h)
    match hr : rustReplaceDunder (c2 :: rest) with
    | [] => rfl
    | d :: ds =>
      rw [hasDoubleUnderscore, Bool.or_eq_false_iff]
      refine ⟨?_, by rw [← hr]; exact ih'⟩
      have hd : (c2 :: rest).head? = some d := by rw [← rustReplaceDunder_head?, hr]; rfl
      simp only [List.head?, Option.some.injEq] at hd
      subst hd
      rcases Decidable.em (c1 = '_') with h1 | h1
      · rcases Decidable.em (c2 = '_') with h2 | h2
        · exact absurd ⟨h1, h2⟩ hu
        · simp [h2]
      · simp [h1]

/-- **C2 (counterexample).**  The doubled-separator collapse implemented by
`safe_name` (Rust's `replace("__", "_")`) is *not* idempotent: on the name
`"___"` one application yields `"__"` (the leftmost pair is collapsed and
scanning resumes after it, leaving the third underscore to pair with nothing),
while a second application yields `"_"`. -/
theorem C2_not_idempotent_on_triple_underscore :
    safe_name (safe_name ("___".toList)) ≠ safe_name ("___".toList) := by
  decide

/-- **C2 (amended).**  For every name string containing no run of three (or
more) consecutive underscores, applying the doubled-separator collapse twice
yields the same result as applying it once. -/
theorem C2_safe_name_idempotent_without_triple (s : List Char)
    (h : hasTripleUnderscore s = false) :
    safe_name (safe_name s) = safe_name s := by
  unfold safe_name
  exact rustReplaceDunder_of_no_double (no_double_of_replace h)

/-- Witness for `C2_safe_name_idempotent_without_triple` at the concrete name
`"my__probe"`. -/
theorem C2_witness :
    hasTripleUnderscore ("my__probe".toList) = false ∧
      safe_name (safe_name ("my__probe".toList)) = safe_name ("my__probe".toList) :=
  ⟨by decide, C2_safe_name_idempotent_without_triple _ (by decide)⟩

/-- **C5.**  The four name derivations of the `Names` trait are pure functions
of the raw name: the macro-case name is the upper-cased safe name, and both the
native-symbol (C) name and the binding (Rust) name are the lower-cased safe
name; on the concrete name `"my__probe"` they produce safe name `"my_probe"`,
macro component `"MY_PROBE"`, native-symbol component `"my_probe"` and binding
callable name `"my_probe"`. -/
theorem C5_name_derivations :
    (∀ s : List Char,
      name_for_c_macro s = rustToUppercase (safe_name s) ∧
      name_for_c s = rustToLowercase (safe_name s) ∧
      name_for_rust s = rustToLowercase (safe_name s)) ∧
    safe_name ("my__probe".toList) = "my_probe".toList ∧
    name_for_c_macro ("my__probe".toList) = "MY_PROBE".toList ∧
    name_for_c ("my__probe".toList) = "my_probe".toList ∧
    name_for_rust ("my__probe".toList) = "my_probe".toList :=
  ⟨fun _ => ⟨rfl, rfl, rfl⟩, by decide, by decide, by decide, by decide⟩

/-- **C10.**  For every raw name, the native-symbol (C) derivation and the
binding (Rust) derivation produce the identical string: both are defined as the
lower-cased safe name, so extern symbol suffixes and host-language callable
names always coincide in canonical form. -/
theorem C10_c_and_rust_names_coincide :
    ∀ s : List Char, name_for_c s = name_for_rust s :=
  fun _ => rfl

lemma dropWhile_append_of_all {p : Char → Bool} {xs : List Char}
    (ys : List Char) (h : ∀ x ∈ xs, p x = true) :
    (xs ++ ys).dropWhile p = ys.dropWhile p := by
  induction xs with
  | nil => rfl
  | cons a as ih =>
    rw [List.cons_append, List.dropWhile_cons, if_pos (h a (by simp))]
    exact ih fun x hx => h x (by simp [hx])

lemma lookup_mem_keys {α β : Type} [BEq α] [LawfulBEq α] :
    ∀ {l : List (α × β)} {a : α} {b : β},
      l.lookup a = some b → a ∈ l.map Prod.fst := by
  intro l
  induction l with
  | nil => intro a b h; exact absurd h (by simp [List.lookup])
  | cons kv rest ih =>
    intro a b h
    rw [List.lookup] at h
    simp only [List.map_cons, List.mem_cons]
    rcases hk : a == kv.1 with _ | _
    · rw [hk] at h
      exact Or.inr (ih h)
    · exact Or.inl (eq_of_beq hk)

/-- Every base token in the closed table contains no `'*'` and is unchanged by
`trim_end_matches(|c| c == ' ' || c == '*')` (no entry ends in a space or a
pointer marker). -/
lemma dTypeToRustType_base_clean {t f : List Char}
    (h : dTypeToRustType t = some f) :
    (t.filter fun c => c == '*') = [] ∧
      (t.reverse.dropWhile fun c => c == ' ' || c == '*') = t.reverse := by
  have hmem : t ∈ dTypeTable.map Prod.fst :=
    lookup_mem_keys (show dTypeTable.lookup t = some f from h)
  have hall : ∀ x ∈ dTypeTable.map Prod.fst,
      (x.filter fun c => c == '*') = [] ∧
        (x.reverse.dropWhile fun c => c == ' ' || c == '*') = x.reverse := by
    decide
  exact hall t hmem

/-- **C1 (counterexample).**  The unsupported-type error does not carry the
full offending spelling: on the spelling `"foo *"` (base token `"foo"`, outside
the table) the mapping fails carrying only the stripped base token `"foo"`,
which differs from the spelling `"foo *"`. -/
theorem C1_error_payload_is_base_token :
    argumentForCFromRust 0 ("foo *".toList) = Except.error ("foo".toList) ∧
      "foo".toList ≠ "foo *".toList := by
  constructor
  · decide
  · decide

/-- **C1 (amended).**  For every type spelling whose base token (the spelling
with trailing pointer markers and whitespace stripped) is outside the closed
type table, the type-mapping operation returns the unsupported-type error
carrying the offending base token, and no mapped output is ever produced — no
default or fallback type is substituted. -/
theorem C1_unsupported_type_is_error (nth : Nat) (argument_ty : List Char)
    (h : dTypeToRustType (trimEndPtrSpace argument_ty) = none) :
    argumentForCFromRust nth argument_ty =
        Except.error (trimEndPtrSpace argument_ty) ∧
      ∀ out, argumentForCFromRust nth argument_ty ≠ Except.ok out := by
  refine ⟨?_, ?_⟩
  · unfold argumentForCFromRust
    rw [h]
  · intro out hout
    unfold argumentForCFromRust at hout
    rw [h] at hout
    exact Except.noConfusion hout

/-- Witness for `C1_unsupported_type_is_error` at the concrete spelling
`"string"` (the spec's scenario 2). -/
theorem C1_witness :
    argumentForCFromRust 0 ("string".toList) = Except.error ("string".toList) :=
  (C1_unsupported_type_is_error 0 ("string".toList) (by decide)).1

/-- **C6.**  The closed table maps exactly the 17 listed base tokens to their
foreign scalar names, and every spelling made of a table base token followed by
trailing pointer markers (`'*'`, possibly interleaved with spaces) maps to that
token's foreign name wrapped in one `*mut ` pointer layer per counted `'*'`. -/
theorem C6_closed_table_with_pointers :
    (dTypeToRustType "char".toList = some "c_char".toList ∧
     dTypeToRustType "short".toList = some "c_short".toList ∧
     dTypeToRustType "int".toList = some "c_int".toList ∧
     dTypeToRustType "long".toList = some "c_long".toList ∧
     dTypeToRustType "long long".toList = some "c_longlong".toList ∧
     dTypeToRustType "int8_t".toList = some "i8".toList ∧
     dTypeToRustType "int16_t".toList = some "i16".toList ∧
     dTypeToRustType "int32_t".toList = some "i32".toList ∧
     dTypeToRustType "int64_t".toList = some "i64".toList ∧
     dTypeToRustType "intptr_t".toList = some "isize".toList ∧
     dTypeToRustType "uint8_t".toList = some "u8".toList ∧
     dTypeToRustType "uint16_t".toList = some "u16".toList ∧
     dTypeToRustType "uint32_t".toList = some "u32".toList ∧
     dTypeToRustType "uint64_t".toList = some "u64".toList ∧
     dTypeToRustType "uintptr_t".toList = some "usize".toList ∧
     dTypeToRustType "float".toList = some "c_float".toList ∧
     dTypeToRustType "double".toList = some "c_double".toList) ∧
    ∀ (b f p : List Char) (nth : Nat),
      dTypeToRustType b = some f →
      (∀ c ∈ p, c = ' ' ∨ c = '*') →
      argumentForCFromRust nth (b ++ p) =
        Except.ok ("arg".toList ++ (Nat.repr nth).toList ++ ": ".toList ++
          (List.replicate ((p.filter fun c => c == '*').length)
            "*mut ".toList).flatten ++ f) := by
  refine ⟨by decide, ?_⟩
  intro b f p nth hb hp
  have hclean := dTypeToRustType_base_clean hb
  have htrim : trimEndPtrSpace (b ++ p) = b := by
    unfold trimEndPtrSpace
    rw [List.reverse_append]
    rw [dropWhile_append_of_all b.reverse ?hall, hclean.2, List.reverse_reverse]
    case hall =>
      intro x hx
      rcases hp x (by simpa using hx) with h | h <;> simp [h]
  have hcount : ((b ++ p).filter fun c => c == '*').length =
      (p.filter fun c => c == '*').length := by
    rw [List.filter_append, hclean.1, List.nil_append]
  unfold argumentForCFromRust
  rw [htrim, hb, hcount]

/-- Witness for the quantified part of `C6_closed_table_with_pointers` at the
concrete spelling `"char **"`. -/
theorem C6_witness :
    argumentForCFromRust 0 ("char **".toList) =
      Except.ok ("arg0: *mut *mut c_char".toList) := by
  have h := C6_closed_table_with_pointers.2 ("char".toList) ("c_char".toList)
    (" **".toList) 0 (by decide) (by decide)
  exact h.trans (by decide)

/-- **C8.**  Probe parsing is whitespace-insensitive between tokens and trims
argument types: `"probe abc();"` and `"probe   abc ( ) ;"` parse to the same
`Probe` value (name `"abc"`, zero arguments — the empty trimmed token is
filtered out, not kept as an empty-string argument), and
`"probe abc ( char * ) ;"` parses to name `"abc"` with the single argument
`"char *"`. -/
theorem C8_probe_whitespace_and_trim :
    pProbe ("probe abc();".toList) =
        some ([], { name := "abc".toList, arguments := [] }) ∧
    pProbe ("probe   abc ( ) ;".toList) =
        some ([], { name := "abc".toList, arguments := [] }) ∧
    pProbe ("probe abc ( char * ) ;".toList) =
        some ([], { name := "abc".toList, arguments := ["char *".toList] }) := by
  refine ⟨by decide, by decide, by decide⟩

/-! ### Consumption bounds for the parsers

Every nom combinator either keeps the input length (`ws`, `name`, `ty`) or
strictly shrinks it (`tag`, `char`), so each loop iteration strictly consumes
input; these bounds justify the `input.length + 1` iteration budgets. -/

lemma dropWhile_length_le (p : Char → Bool) (l : List Char) :
    (l.dropWhile p).length ≤ l.length := by
  induction l with
  | nil => simp
  | cons a as ih =>
    rw [List.dropWhile_cons]
    split
    · exact Nat.le_trans ih (Nat.le_succ _)
    · exact Nat.le_refl _

lemma skipWs_length_le (l : List Char) : (skipWs l).length ≤ l.length :=
  dropWhile_length_le _ _

lemma isPrefixOf_length_le : ∀ (t l : List Char),
    t.isPrefixOf l = true → t.length ≤ l.length := by
  intro t
  induction t with
  | nil => intro l _; exact Nat.zero_le _
  | cons a as ih =>
    intro l h
    match l with
    | [] => exact absurd h (by simp [List.isPrefixOf])
    | b :: bs =>
      simp only [List.isPrefixOf, Bool.and_eq_true] at h
      exact Nat.succ_le_succ (ih bs h.2)

lemma pChar_some_length {c : Char} {input : List Char} {s : List Char × Char}
    (h : pChar c input = some s) : s.1.length + 1 = input.length := by
  match input with
  | [] => exact absurd h (by simp [pChar])
  | x :: xs =>
    rw [pChar] at h
    split at h
    · rw [← Option.some_inj.mp h]
      simp
    · exact absurd h (by simp)

lemma pTag_some_length {t input : List Char} {s : List Char × List Char}
    (h : pTag t input = some s) : s.1.length + t.length = input.length := by
  rw [pTag] at h
  split at h
  · rename_i hpre
    have hle := isPrefixOf_length_le t input hpre
    rw [← Option.some_inj.mp h]
    simp only [List.length_drop]
    omega
  · exact absurd h (by simp)

lemma pTakeUntil_some_length {t : List Char} :
    ∀ {input : List Char} {s : List Char × List Char},
      pTakeUntil t input = some s → s.1.length ≤ input.length := by
  intro input
  induction input with
  | nil =>
    intro s h
    rw [pTakeUntil] at h
    split at h
    · rw [← Option.some_inj.mp h]
    · exact absurd h (by simp)
  | cons c rest ih =>
    intro s h
    rw [pTakeUntil] at h
    split at h
    · rw [← Option.some_inj.mp h]
    · rw [Option.map_eq_some'] at h
      obtain ⟨a, ha, hb⟩ := h
      have h3 := ih ha
      have hs : s.1 = a.1 := by rw [← hb]
      rw [hs]
      exact Nat.le_succ_of_le h3

lemma pArgListLoop_some_length :
    ∀ (fuel : Nat) (input : List Char) (acc : List (List Char))
      {s : List Char × List (List Char)},
      pArgListLoop fuel input acc = some s → s.1.length ≤ input.length := by
  intro fuel
  induction fuel with
  | zero => intro input acc s h; exact absurd h (by simp [pArgListLoop])
  | succ n ih =>
    intro input acc s h
    cases hc : pChar ',' input with
    | none =>
      simp only [pArgListLoop, hc] at h
      rw [← Option.some_inj.mp h]
    | some c =>
      simp only [pArgListLoop, hc] at h
      have h1 := ih _ _ h
      have h2 := pChar_some_length hc
      have h3 : ((skipWs c.1).dropWhile isTyChar).length ≤ c.1.length :=
        Nat.le_trans (dropWhile_length_le _ _) (skipWs_length_le _)
      omega

lemma pArgList_some_length {input : List Char} {s : List Char × List (List Char)}
    (h : pArgList input = some s) : s.1.length ≤ input.length := by
  unfold pArgList at h
  have h1 := pArgListLoop_some_length _ _ _ h
  have h2 : ((skipWs input).dropWhile isTyChar).length ≤ input.length :=
    Nat.le_trans (dropWhile_length_le _ _) (skipWs_length_le _)
  omega

lemma pProbe_some_length {input : List Char} {s : List Char × Probe}
    (h : pProbe input = some s) : s.1.length < input.length := by
  rw [pProbe] at h
  simp only [Option.bind_eq_some, Option.map_eq_some'] at h
  obtain ⟨s1, h1, s2, h2, s3, h3, s4, h4, s5, h5, heq⟩ := h
  have l1 := pTag_some_length h1
  have l2 := pChar_some_length h2
  have l2' : (skipWs ((skipWs s1.1).dropWhile isNameChar)).length ≤ s1.1.length :=
    Nat.le_trans (skipWs_length_le _)
      (Nat.le_trans (dropWhile_length_le _ _) (skipWs_length_le _))
  have l3 := pArgList_some_length h3
  have l4 := pChar_some_length h4
  have l4' : (skipWs s3.1).length ≤ s3.1.length := skipWs_length_le _
  have l5 := pChar_some_length h5
  have l5' : (skipWs s4.1).length ≤ s4.1.length := skipWs_length_le _
  have hs : s.1.length = s5.1.length := by rw [← heq]
  have ht : ("probe".toList).length = 5 := by decide
  omega

lemma pProbeListLoop_some_length :
    ∀ (fuel : Nat) (input : List Char) {s : List Char × List Probe},
      pProbeListLoop fuel input = some s → s.1.length ≤ input.length := by
  intro fuel
  induction fuel with
  | zero => intro input s h; exact absurd h (by simp [pProbeListLoop])
  | succ n ih =>
    intro input s h
    cases hp : pProbe (skipWs input) with
    | none =>
      simp only [pProbeListLoop, hp] at h
      rw [← Option.some_inj.mp h]
    | some t =>
      simp only [pProbeListLoop, hp] at h
      cases hl : pProbeListLoop n t.1 with
      | none => rw [hl] at h; exact absurd h (by simp)
      | some u =>
        rw [hl] at h
        have h1 := ih t.1 hl
        have h2 := pProbe_some_length hp
        have h3 := skipWs_length_le input
        have hs : s.1.length = u.1.length := by rw [← Option.some_inj.mp h]
        omega

lemma pProvider_some_length {input : List Char} {s : List Char × Provider}
    (h : pProvider input = some s) : s.1.length < input.length := by
  rw [pProvider] at h
  simp only [Option.bind_eq_some, Option.map_eq_some'] at h
  obtain ⟨s1, h1, s2, h2, s3, h3, s4, h4, s5, h5, heq⟩ := h
  have l1 := pTag_some_length h1
  have l2 := pChar_some_length h2
  have l2' : (skipWs ((skipWs s1.1).dropWhile isNameChar)).length ≤ s1.1.length :=
    Nat.le_trans (skipWs_length_le _)
      (Nat.le_trans (dropWhile_length_le _ _) (skipWs_length_le _))
  have l3 : s3.1.length ≤ s2.1.length :=
    pProbeListLoop_some_length _ _ h3
  have l4 := pChar_some_length h4
  have l4' : (skipWs s3.1).length ≤ s3.1.length := skipWs_length_le _
  have l5 := pChar_some_length h5
  have l5' : (skipWs s4.1).length ≤ s4.1.length := skipWs_length_le _
  have hs : s.1.length = s5.1.length := by rw [← heq]
  have ht : ("provider".toList).length = 8 := by decide
  omega

lemma pScriptLoop_fuel_irrelevant :
    ∀ (f1 f2 : Nat) (input : List Char) (acc : List Provider),
      input.length < f1 → input.length < f2 →
      pScriptLoop f1 input acc = pScriptLoop f2 input acc := by
  intro f1
  induction f1 with
  | zero => intro f2 input acc h1 _; exact absurd h1 (by omega)
  | succ n ih =>
    intro f2 input acc h1 h2
    match f2 with
    | 0 => exact absurd h2 (by omega)
    | m + 1 =>
      cases htu : pTakeUntil providerKeyword input with
      | none => simp only [pScriptLoop, htu]
      | some s =>
        cases hp : pProvider s.1 with
        | none => simp only [pScriptLoop, htu, hp]
        | some t =>
          simp only [pScriptLoop, htu, hp]
          have la := pTakeUntil_some_length htu
          have lb := pProvider_some_length hp
          exact ih m t.1 (acc ++ [t.2]) (by omega) (by omega)

lemma pTakeUntil_eq_none_of_not_contains {t : List Char} :
    ∀ {input : List Char}, containsSeq t input = false →
      pTakeUntil t input = none := by
  intro input
  induction input with
  | nil =>
    intro h
    rw [containsSeq] at h
    rw [pTakeUntil, if_neg (by simp [h])]
  | cons c rest ih =>
    intro h
    rw [containsSeq, Bool.or_eq_false_iff] at h
    rw [pTakeUntil, if_neg (by simp [h.1]), ih h.2]
    rfl

/-- **C9.**  The `script` parse loop terminates on every finite input: its
result does not depend on the iteration budget once that budget exceeds the
input length (each iteration strictly consumes input, which is the loop's
intrinsic termination measure), and on any input with no occurrence of the
literal keyword `"provider"` the parse returns successfully with the providers
collected so far — for the whole input, the empty provider list. -/
theorem C9_parse_terminates :
    (∀ (f1 f2 : Nat) (input : List Char) (acc : List Provider),
        input.length < f1 → input.length < f2 →
        pScriptLoop f1 input acc = pScriptLoop f2 input acc) ∧
    ∀ input : List Char, containsSeq providerKeyword input = false →
      parse input = some { providers := [] } := by
  refine ⟨pScriptLoop_fuel_irrelevant, ?_⟩
  intro input h
  unfold parse
  simp only [pScriptLoop, pTakeUntil_eq_none_of_not_contains h]

/-- Witness for `C9_parse_terminates` on concrete inputs. -/
theorem C9_witness :
    pScriptLoop 10 ("hi".toList) [] = pScriptLoop 20 ("hi".toList) [] ∧
      parse ("hello world".toList) = some { providers := [] } :=
  ⟨C9_parse_terminates.1 10 20 _ [] (by decide) (by decide),
   C9_parse_terminates.2 _ (by decide)⟩

/-! ### Character-class soundness of parsed names (C3) -/

lemma all_takeWhile (p : Char → Bool) (l : List Char) :
    (l.takeWhile p).all p = true := by
  induction l with
  | nil => rfl
  | cons a as ih =>
    rw [List.takeWhile_cons]
    split
    · rename_i hp
      simp [hp, ih]
    · rfl

lemma pProbe_name_chars {input : List Char} {s : List Char × Probe}
    (h : pProbe input = some s) : s.2.name.all isNameChar = true := by
  rw [pProbe] at h
  simp only [Option.bind_eq_some, Option.map_eq_some'] at h
  obtain ⟨s1, h1, s2, h2, s3, h3, s4, h4, s5, h5, heq⟩ := h
  rw [← heq]
  exact all_takeWhile _ _

lemma pProbeListLoop_names :
    ∀ (fuel : Nat) (input : List Char) {s : List Char × List Probe},
      pProbeListLoop fuel input = some s →
      ∀ p ∈ s.2, p.name.all isNameChar = true := by
  intro fuel
  induction fuel with
  | zero => intro input s h; exact absurd h (by simp [pProbeListLoop])
  | succ n ih =>
    intro input s h
    cases hp : pProbe (skipWs input) with
    | none =>
      simp only [pProbeListLoop, hp] at h
      rw [← Option.some_inj.mp h]
      intro p hmem
      exact absurd hmem (by simp)
    | some t =>
      simp only [pProbeListLoop, hp] at h
      cases hl : pProbeListLoop n t.1 with
      | none => rw [hl] at h; exact absurd h (by simp)
      | some u =>
        rw [hl] at h
        rw [← Option.some_inj.mp h]
        intro p hmem
        rcases List.mem_cons.mp hmem with rfl | hmem2
        · exact pProbe_name_chars hp
        · exact ih t.1 hl p hmem2

lemma pProvider_names {input : List Char} {s : List Char × Provider}
    (h : pProvider input = some s) :
    s.2.name.all isNameChar = true ∧
      ∀ p ∈ s.2.probes, p.name.all isNameChar = true := by
  rw [pProvider] at h
  simp only [Option.bind_eq_some, Option.map_eq_some'] at h
  obtain ⟨s1, h1, s2, h2, s3, h3, s4, h4, s5, h5, heq⟩ := h
  rw [← heq]
  refine ⟨all_takeWhile _ _, ?_⟩
  intro p hmem
  exact pProbeListLoop_names _ _
    (show pProbeListLoop (s2.1.length + 1) s2.1 = some s3 from h3) p hmem

lemma pScriptLoop_names :
    ∀ (fuel : Nat) (input : List Char) (acc : List Provider) {sc : Script},
      (∀ prov ∈ acc, prov.name.all isNameChar = true ∧
        ∀ p ∈ prov.probes, p.name.all isNameChar = true) →
      pScriptLoop fuel input acc = some sc →
      ∀ prov ∈ sc.providers, prov.name.all isNameChar = true ∧
        ∀ p ∈ prov.probes, p.name.all isNameChar = true := by
  intro fuel
  induction fuel with
  | zero => intro input acc sc _ h; exact absurd h (by simp [pScriptLoop])
  | succ n ih =>
    intro input acc sc hacc h
    cases htu : pTakeUntil providerKeyword input with
    | none =>
      simp only [pScriptLoop, htu] at h
      rw [← Option.some_inj.mp h]
      exact hacc
    | some s =>
      cases hp : pProvider s.1 with
      | none =>
        simp only [pScriptLoop, htu, hp] at h
        exact absurd h (by simp)
      | some t =>
        simp only [pScriptLoop, htu, hp] at h
        refine ih t.1 _ ?_ h
        intro prov hmem
        rcases List.mem_append.mp hmem with hmem2 | hmem2
        · exact hacc prov hmem2
        · rcases List.mem_singleton.mp hmem2 with rfl
          exact pProvider_names hp

/-- **C3 (counterexample).**  A successful parse can produce a provider whose
name is *empty*: the `name` parser is `take_while` (zero or more characters),
so on `"provider { };"` the provider block parses successfully with
`name = ""`, refuting the claimed non-emptiness invariant. -/
theorem C3_empty_name_accepted :
    parse ("provider \x7b \x7d;".toList) =
      some { providers := [{ name := [], probes := [] }] } := by
  decide

/-- **C3 (amended).**  For every provider and probe produced by a successful
parse, every character of its name is accepted by the parser's identifier
test `isNameChar` (code point truncated to a byte is ASCII-alphanumeric, or
the character is `'-'` or `'_'`); names may however be empty. -/
theorem C3_parsed_name_charset (input : List Char) (s : Script)
    (h : parse input = some s) :
    ∀ prov ∈ s.providers, prov.name.all isNameChar = true ∧
      ∀ p ∈ prov.probes, p.name.all isNameChar = true :=
  pScriptLoop_names _ _ []
    (fun _ hm => absurd hm (by simp)) h

/-- Witness for `C3_parsed_name_charset` on a concrete parse. -/
theorem C3_witness :
    ("foobar".toList).all isNameChar = true ∧
      ("abc".toList).all isNameChar = true := by
  have h := C3_parsed_name_charset ("provider foobar \x7b probe abc(); \x7d;".toList)
    { providers := [{ name := "foobar".toList,
                      probes := [{ name := "abc".toList, arguments := [] }] }] }
    (by decide)
  have h2 := h { name := "foobar".toList,
                 probes := [{ name := "abc".toList, arguments := [] }] } (by simp)
  exact ⟨h2.1, h2.2 { name := "abc".toList, arguments := [] } (by simp)⟩

lemma enumMapFrom_length {α β : Type} (f : Nat → α → β) :
    ∀ (n : Nat) (l : List α), (enumMapFrom f n l).length = l.length := by
  intro n l
  induction l generalizing n with
  | nil => rfl
  | cons x xs ih => simp [enumMapFrom, ih]

lemma enumMapFrom_getD {α β : Type} (f : Nat → α → β) (d : α) (e : β) :
    ∀ (l : List α) (n i : Nat), i < l.length →
      (enumMapFrom f n l).getD i e = f (n + i) (l.getD i d) := by
  intro l
  induction l with
  | nil => intro n i h; exact absurd h (by simp)
  | cons x xs ih =>
    intro n i h
    match i with
    | 0 => simp [enumMapFrom]
    | j + 1 =>
      simp only [enumMapFrom, List.getD_cons_succ]
      rw [ih (n + 1) j (by simpa using h)]
      congr 1
      omega

lemma argumentsForCFromRustAux_length :
    ∀ (arguments : List (List Char)) (nth : Nat) {xs : List (List Char)},
      argumentsForCFromRustAux nth arguments = Except.ok xs →
      xs.length = arguments.length := by
  intro arguments
  induction arguments with
  | nil =>
    intro nth xs h
    simp only [argumentsForCFromRustAux, Except.ok.injEq] at h
    rw [← h]
  | cons a rest ih =>
    intro nth xs h
    cases hf : argumentForCFromRust nth a with
    | error e =>
      simp only [argumentsForCFromRustAux, hf] at h
      exact absurd h (by simp)
    | ok x =>
      simp only [argumentsForCFromRustAux, hf] at h
      cases hr : argumentsForCFromRustAux (nth + 1) rest with
      | error e => rw [hr] at h; exact absurd h (by simp)
      | ok ys =>
        rw [hr] at h
        simp only [Except.ok.injEq] at h
        rw [← h]
        simp [ih (nth + 1) hr]

/-- **C7.**  For every provider and probe, the emitted native wrapper function
has exactly the source's shape — symbol name
`{provider}_probe_{probe}` (canonical C names), parameter list
`arguments_for_c`, body invoking the macro `{PROVIDER}_{PROBE}` (canonical
macro names) on the forwarded names — where the parameter list has exactly one
entry per probe argument, entry `i` being the raw spelling verbatim followed by
positional name `arg{i}`; the forwarded names likewise are `arg{i}`; the
Rust-side parameter list built by `arguments_for_c_from_rust` (used verbatim by
both the extern declaration and the binding function) also has exactly one
entry per argument; and a zero-argument probe yields empty parameter and
argument-name lists. -/
theorem C7_native_wrapper_shape (provider : Provider) (probe : Probe) :
    cWrapperFor provider probe =
      "\nvoid ".toList ++ name_for_c provider.name ++ "_probe_".toList ++
        name_for_c probe.name ++ "(".toList ++
        arguments_for_c probe.arguments ++ ") \x7b\n    ".toList ++
        name_for_c_macro provider.name ++ "_".toList ++
        name_for_c_macro probe.name ++ "(".toList ++
        argumentNames probe.arguments ++ ");\n\x7d\n".toList ∧
    (argumentsForCList probe.arguments).length = probe.arguments.length ∧
    (argumentNamesList probe.arguments).length = probe.arguments.length ∧
    (∀ i, i < probe.arguments.length →
      (argumentsForCList probe.arguments).getD i [] =
        probe.arguments.getD i [] ++ " arg".toList ++ (Nat.repr i).toList) ∧
    (∀ i, i < probe.arguments.length →
      (argumentNamesList probe.arguments).getD i [] =
        "arg".toList ++ (Nat.repr i).toList) ∧
    (∀ xs, argumentsForCFromRustAux 0 probe.arguments = Except.ok xs →
      xs.length = probe.arguments.length) ∧
    (probe.arguments = [] →
      arguments_for_c probe.arguments = [] ∧
        argumentNames probe.arguments = []) := by
  refine ⟨rfl, enumMapFrom_length _ _ _, enumMapFrom_length _ _ _,
    ?_, ?_, ?_, ?_⟩
  · intro i hi
    have h := enumMapFrom_getD
      (fun nth ty => ty ++ " arg".toList ++ (Nat.repr nth).toList) [] []
      probe.arguments 0 i hi
    simpa [argumentsForCList] using h
  · intro i hi
    have h := enumMapFrom_getD
      (fun nth _ => "arg".toList ++ (Nat.repr nth).toList) [] []
      probe.arguments 0 i hi
    simpa [argumentNamesList] using h
  · intro xs h
    exact argumentsForCFromRustAux_length _ _ h
  · intro h
    rw [arguments_for_c, argumentNames, argumentsForCList, argumentNamesList, h]
    exact ⟨rfl, rfl⟩

/-- Witness for `C7_native_wrapper_shape` at a concrete probe. -/
theorem C7_witness :
    (argumentsForCList ["char *".toList, "int".toList]).getD 1 [] =
        "int arg1".toList ∧
      (argumentNamesList ["char *".toList, "int".toList]).getD 0 [] =
        "arg0".toList := by
  have h := C7_native_wrapper_shape { name := "foobar".toList, probes := [] }
    { name := "abc".toList, arguments := ["char *".toList, "int".toList] }
  refine ⟨?_, ?_⟩
  · exact (h.2.2.2.1 1 (by decide)).trans (by decide)
  · exact (h.2.2.2.2.1 0 (by decide)).trans (by decide)

/-- **C4 (counterexample).**  The parse→emit pipeline is *not* byte-identical
across runs for a fixed input text: the native wrapper source embeds the
per-run temporary header path in its `#include` line (the `.h` file is a new
`tempfile` on every run), so two runs that differ only in that generated path
produce different native wrapper sources. -/
theorem C4_header_path_breaks_determinism :
    pipeline ("provider foobar \x7b probe abc(); \x7d;".toList)
        ("/tmp/sonde1.h".toList) ≠
      pipeline ("provider foobar \x7b probe abc(); \x7d;".toList)
        ("/tmp/sonde2.h".toList) := by
  decide

/-- **C4 (amended).**  For a fixed input text the pipeline is deterministic up
to the generated header path: the host-language binding source is
byte-identical across any two successful runs, and the native wrapper source
is byte-identical whenever the two runs use the same header path (the only
run-varying input to emission). -/
theorem C4_deterministic_given_header_path (text p1 p2 : List Char)
    (out1 out2 : List Char × Except (List Char) (List Char))
    (h1 : pipeline text p1 = some out1) (h2 : pipeline text p2 = some out2) :
    out1.2 = out2.2 ∧ (p1 = p2 → out1.1 = out2.1) := by
  cases hp : parse text with
  | none =>
    simp only [pipeline, hp] at h1
    exact absurd h1 (by simp)
  | some script =>
    simp only [pipeline, hp, Option.some.injEq] at h1 h2
    rw [← h1, ← h2]
    exact ⟨rfl, fun hpp => by rw [hpp]⟩

/-- Witness for `C4_deterministic_given_header_path`: across two concrete runs
with different header paths, the binding sources coincide. -/
theorem C4_witness :
    (pipeline ("provider foobar \x7b probe abc(); \x7d;".toList)
        ("/tmp/a.h".toList)).map Prod.snd =
      (pipeline ("provider foobar \x7b probe abc(); \x7d;".toList)
        ("/tmp/b.h".toList)).map Prod.snd := by
  cases hA : pipeline ("provider foobar \x7b probe abc(); \x7d;".toList)
      ("/tmp/a.h".toList) with
  | none => exact absurd hA (by decide)
  | some o1 =>
    cases hB : pipeline ("provider foobar \x7b probe abc(); \x7d;".toList)
        ("/tmp/b.h".toList) with
    | none => exact absurd hB (by decide)
    | some o2 =>
      have h := C4_deterministic_given_header_path _ _ _ o1 o2 hA hB
      simp only [Option.map_some']
      rw [h.1]

end Sonde
